import Mathlib

/-!
Verification of the Doctor-House backend graph engine (`backend.py`).

Shallow embedding conventions:
* Python vertex items and kinds are strings (`Name`).
* Python `float` edge weights are modelled by exact rationals (`ℚ`);
  the weight `1 / severity` is the exact rational reciprocal.
* A Python `set` of `(vertex, weight)` pairs is modelled as an
  insertion-ordered duplicate-free list of `(item, weight)` pairs:
  every operation of the source only ever reads the neighbour's `.item`
  field and the weight, so identifying a neighbour entry by its item
  name is observationally faithful.
* Code that can raise (`ValueError`, `KeyError`, `IndexError`) returns
  `Option` (`none` = exception).
* The `dict` of vertices (and of scores) is modelled as an
  insertion-ordered association list, with `dictSet` giving Python's
  `d[k] = v` semantics (update in place, else append).

Note: the distributed copy of `backend.py` has a handful of
transit-mangled characters (the indentation of the `else:` branch of
`calculate_potential_disease`, `none` for `None` in the unrelated
`Disease.__init__`); the embedding follows the evident parse, which is
the one all of the module's doctests describe.
-/

abbrev Name := String

/-- A vertex of the diagnosis graph: the stored item, its neighbour
entries `(item, weight)`, and its kind tag (`"symptom"`/`"disease"`). -/
structure Vertex where
  item : Name
  neighbours : List (Name × ℚ)
  kind : String
deriving DecidableEq

/-- The graph: an insertion-ordered table from item to vertex,
mirroring `Graph._vertices`. -/
structure Graph where
  vertices : List (Name × Vertex)
deriving DecidableEq

/-- Association-list lookup (first match), mirroring Python dict access. -/
def alookup {α : Type} : List (Name × α) → Name → Option α
  | [], _ => none
  | (k, v) :: rest, key => if k = key then some v else alookup rest key

/-- Python `d[k] = v`: overwrite the binding in place if present,
otherwise append it. -/
def dictSet {α : Type} : List (Name × α) → Name → α → List (Name × α)
  | [], key, v => [(key, v)]
  | (k, w) :: rest, key, v =>
      if k = key then (key, v) :: rest else (k, w) :: dictSet rest key v

/-- Python `d.get(k, dflt)`. -/
def dictGetD {α : Type} (m : List (Name × α)) (key : Name) (dflt : α) : α :=
  (alookup m key).getD dflt

/-- Python `set.add` on the neighbour set: no-op if the pair is already
present, otherwise insert (at the end, preserving a deterministic
order). -/
def setAdd (s : List (Name × ℚ)) (p : Name × ℚ) : List (Name × ℚ) :=
  if p ∈ s then s else s ++ [p]

/-- Apply `f` to the vertex bound to `k` (the model of mutating the
vertex object stored in the table). -/
def updateVertex (l : List (Name × Vertex)) (k : Name) (f : Vertex → Vertex) :
    List (Name × Vertex) :=
  l.map (fun kv => if kv.1 = k then (kv.1, f kv.2) else kv)

namespace Graph

/-- `Graph.__init__`: the empty graph. -/
def empty : Graph := ⟨[]⟩

/-- Table lookup `self._vertices[item]` as a partial operation. -/
def lookupV (g : Graph) (item : Name) : Option Vertex :=
  alookup g.vertices item

/-- Python `item in self._vertices`. -/
def hasVertex (g : Graph) (item : Name) : Bool :=
  (g.lookupV item).isSome

/-- `Graph.add_vertex`: binds `item` to a fresh isolated vertex.  The
source performs no duplicate check (the precondition is documented but
not enforced), so an existing binding is silently overwritten. -/
def add_vertex (g : Graph) (item : Name) (item_kind : String) : Graph :=
  ⟨dictSet g.vertices item ⟨item, [], item_kind⟩⟩

/-- `Graph.add_edge`: if both items are present, add the symmetric
neighbour entries with weight `1 / edge_value`; otherwise raise
`ValueError` (`none`).  (For `edge_value = 0` the Python code raises
`ZeroDivisionError`; every theorem below uses nonzero severities.) -/
def add_edge (g : Graph) (item1 item2 : Name) (edge_value : ℤ) : Option Graph :=
  match g.lookupV item1, g.lookupV item2 with
  | some _, some _ =>
      some ⟨updateVertex
              (updateVertex g.vertices item1
                (fun v => { v with neighbours := setAdd v.neighbours (item2, 1 / (edge_value : ℚ)) }))
              item2
              (fun v => { v with neighbours := setAdd v.neighbours (item1, 1 / (edge_value : ℚ)) })⟩
  | _, _ => none

/-- `Graph.adjacent`: `False` unless both items are present and the
first one's neighbour set mentions the second. -/
def adjacent (g : Graph) (item1 item2 : Name) : Bool :=
  match g.lookupV item1, g.lookupV item2 with
  | some v1, some _ => v1.neighbours.any (fun p => p.1 == item2)
  | _, _ => false

/-- `Graph.get_neighbours`: the set of neighbour items (`ValueError`
when the item is absent).  `List.dedup` models the set comprehension
collapsing duplicate items. -/
def get_neighbours (g : Graph) (item : Name) : Option (List Name) :=
  (g.lookupV item).map (fun v => (v.neighbours.map Prod.fst).dedup)

/-- `Graph.get_vertex_kind` (`KeyError` when absent). -/
def get_vertex_kind (g : Graph) (item : Name) : Option String :=
  (g.lookupV item).map Vertex.kind

/-- Scan of `self._vertices[item_1].neighbours` for the first entry for
`item_2`; `0.0` is the not-found sentinel. -/
def findWeight : List (Name × ℚ) → Name → ℚ
  | [], _ => 0
  | (n, w) :: rest, item2 => if n = item2 then w else findWeight rest item2

/-- `Graph.get_weight_of_edge`: raises `KeyError` (`none`) when
`item_1` is absent from the table; otherwise returns the stored weight,
or the sentinel `0.0` when `item_2` is not a neighbour of `item_1`. -/
def get_weight_of_edge (g : Graph) (item_1 item_2 : Name) : Option ℚ :=
  (g.lookupV item_1).map (fun v => findWeight v.neighbours item_2)

/-- `Graph.calculate_path_score`: sum of `get_weight_of_edge` over the
consecutive pairs of the path (propagating its possible `KeyError`). -/
def calculate_path_score (g : Graph) : List Name → Option ℚ
  | [] => some 0
  | [_] => some 0
  | a :: b :: rest => do
      let w ← g.get_weight_of_edge a b
      let r ← g.calculate_path_score (b :: rest)
      pure (w + r)

/-- `Graph.get_list_of_vertices`: the keys in insertion order. -/
def get_list_of_vertices (g : Graph) : List Name :=
  g.vertices.map Prod.fst

/-- The keys of the vertex table as a finite set (measure bookkeeping
for the BFS loop). -/
def keysFinset (g : Graph) : Finset Name :=
  (g.get_list_of_vertices).toFinset

end Graph

namespace Graph

/-- The BFS loop of `Graph.shortest_path`.  The queue holds whole
paths; a node is marked visited only when dequeued; expanding a node
appends one extended path per neighbour.  `none` models the exceptions
the loop can raise (`path[-1]` on an empty path, `get_neighbours` on an
item missing from the table). -/
def bfs (g : Graph) (end_ : Name) (queue : List (List Name)) (visited : List Name) :
    Option (List Name) :=
  match queue with
  | [] => some []
  | path :: rest =>
    match path.getLast? with
    | none => none
    | some node =>
      if node = end_ then some path
      else if hvis : node ∈ visited then g.bfs end_ rest visited
      else
        match hnbs : g.get_neighbours node with
        | none => none
        | some nbs =>
            g.bfs end_ (rest ++ nbs.map (fun nb => path ++ [nb])) (node :: visited)
termination_by ((g.keysFinset \ visited.toFinset).card, queue.length)
decreasing_by
  · apply Prod.Lex.right
    simp
  · apply Prod.Lex.left
    have hsome : (g.lookupV node).isSome := by
      unfold Graph.get_neighbours at hnbs
      rcases Option.map_eq_some'.mp hnbs with ⟨v, hv, -⟩
      rw [hv]; rfl
    have hmem0 : node ∈ g.vertices.map Prod.fst := by
      unfold Graph.lookupV at hsome
      generalize g.vertices = l at hsome
      induction l with
      | nil => simp [alookup] at hsome
      | cons kv tl ih =>
        rw [← kv.eta] at hsome
        rw [List.map_cons, List.mem_cons]
        by_cases hk : kv.1 = node
        · exact Or.inl hk.symm
        · simp only [alookup, hk, if_false] at hsome
          exact Or.inr (ih hsome)
    have hkey : node ∈ g.keysFinset := by
      unfold Graph.keysFinset Graph.get_list_of_vertices
      rw [List.mem_toFinset]
      exact hmem0
    have hmem : node ∈ g.keysFinset \ visited.toFinset := by
      rw [Finset.mem_sdiff, List.mem_toFinset]
      exact ⟨hkey, hvis⟩
    calc (g.keysFinset \ (node :: visited).toFinset).card
        = ((g.keysFinset \ visited.toFinset).erase node).card := by
          rw [List.toFinset_cons, Finset.sdiff_insert]
      _ < (g.keysFinset \ visited.toFinset).card :=
          Finset.card_erase_lt_of_mem hmem

/-- `Graph.shortest_path`: guard on both endpoints, then run the BFS
from the single-path queue `[[start]]`. -/
def shortest_path (g : Graph) (start end_ : Name) : Option (List Name) :=
  if g.hasVertex start ∧ g.hasVertex end_ then g.bfs end_ [[start]] []
  else some []

end Graph

/-- `generate_combinations`: all pairs `(lst[i], lst[j])` with `i < j`,
in the order of the nested loops. -/
def generate_combinations {α : Type} : List α → List (α × α)
  | [] => []
  | x :: rest => rest.map (fun y => (x, y)) ++ generate_combinations rest

namespace Graph

/-- Step-indexed mirror of `bfs`, branch for branch.  The outer `none`
means the step budget ran out; `some r` means the loop finished with
result `r` (where `r : Option (List Name)` is `bfs`'s own
exception-or-value outcome).  Being structural in the fuel, it lets a
concrete run be evaluated by the kernel, and the fuel bound proved
below is exactly the claim that the loop's work is bounded by the size
of the graph. -/
def bfsFuel (g : Graph) (end_ : Name) :
    ℕ → List (List Name) → List Name → Option (Option (List Name))
  | 0, _, _ => none
  | _ + 1, [], _ => some (some [])
  | fuel + 1, path :: rest, visited =>
    match path.getLast? with
    | none => some none
    | some node =>
      if node = end_ then some (some path)
      else if node ∈ visited then g.bfsFuel end_ fuel rest visited
      else
        match g.get_neighbours node with
        | none => some none
        | some nbs =>
            g.bfsFuel end_ fuel (rest ++ nbs.map (fun nb => path ++ [nb])) (node :: visited)

/-- Number of neighbour entries a BFS expansion of `v` enqueues. -/
def degOf (g : Graph) (v : Name) : ℕ :=
  match g.get_neighbours v with
  | some l => l.length
  | none => 0

/-- Total expansion work available in the whole graph. -/
def totalDeg (g : Graph) : ℕ :=
  ∑ v in g.keysFinset, g.degOf v

/-- Loop measure: pending queue entries plus the expansion work of the
still-unvisited vertices.  Every iteration of the BFS loop strictly
decreases it. -/
def bfsMeasure (g : Graph) (queue : List (List Name)) (visited : List Name) : ℕ :=
  queue.length + ∑ v in g.keysFinset \ visited.toFinset, g.degOf v

end Graph

/-- The single-symptom accumulation loop of `calculate_potential_disease`:
`scores[neighbour] = get_weight_of_edge(neighbour, symptoms[0])`. -/
def singleAccum (g : Graph) (s0 : Name) :
    List (Name × ℚ) → List Name → Option (List (Name × ℚ))
  | m, [] => some m
  | m, nb :: rest => do
      let w ← g.get_weight_of_edge nb s0
      singleAccum g s0 (dictSet m nb w) rest

/-- The inner loop over the vertices of one shortest path:
for each vertex of kind `"disease"`, add the whole path's score to its
accumulated entry. -/
def diseaseAccum (g : Graph) (path : List Name) :
    List (Name × ℚ) → List Name → Option (List (Name × ℚ))
  | m, [] => some m
  | m, v :: rest => do
      let k ← g.get_vertex_kind v
      if k = "disease" then do
        let ps ← g.calculate_path_score path
        diseaseAccum g path (dictSet m v (dictGetD m v 0 + ps)) rest
      else diseaseAccum g path m rest

/-- The multi-symptom loop of `calculate_potential_disease`: for each
generated pair, compute the shortest path and run `diseaseAccum` over
its vertices. -/
def multiScores (g : Graph) :
    List (Name × Name) → List (Name × ℚ) → Option (List (Name × ℚ))
  | [], m => some m
  | (s1, s2) :: rest, m => do
      let path ← g.shortest_path s1 s2
      let m' ← diseaseAccum g path m path
      multiScores g rest m'

/-- The raw-score phase of `calculate_potential_disease` (the value of
`scores` just before normalization): the single-symptom branch when
`len(symptoms) == 1`, the pair loop otherwise. -/
def rawScores (g : Graph) (symptoms : List Name) : Option (List (Name × ℚ)) :=
  match symptoms with
  | [s0] => do
      let neighbours ← g.get_neighbours s0
      singleAccum g s0 [] neighbours
  | _ => multiScores g (generate_combinations symptoms) []

/-- The normalization phase: drop zero raw scores, invert, then scale
by `100 / sum`.  (With the rationals' total division, an empty filtered
map yields an empty result, exactly as in the source where the final
comprehension iterates zero times.) -/
def normalizeScores (scores : List (Name × ℚ)) : List (Name × ℚ) :=
  let inverted := (scores.filter (fun p => decide (p.2 ≠ 0))).map (fun p => (p.1, 1 / p.2))
  let sum_scores := (inverted.map Prod.snd).sum
  inverted.map (fun p => (p.1, p.2 / sum_scores * 100))

/-- `calculate_potential_disease`: raw scores, then normalization. -/
def calculate_potential_disease (g : Graph) (symptoms : List Name) :
    Option (List (Name × ℚ)) :=
  (rawScores g symptoms).map normalizeScores

/-- One BFS expansion step: `b` is among the neighbour items that
expanding `a` enqueues. -/
def step (g : Graph) (a b : Name) : Prop :=
  ∃ l, g.get_neighbours a = some l ∧ b ∈ l

/-- A path of the graph from `s` to `e`: nonempty, endpoints as given,
every vertex present in the table, consecutive vertices linked by the
neighbour relation. -/
def IsWalk (g : Graph) (s e : Name) (w : List Name) : Prop :=
  w ≠ [] ∧ w.head? = some s ∧ w.getLast? = some e ∧
    (∀ x ∈ w, g.hasVertex x = true) ∧ List.Chain' (step g) w

/-- Referential integrity (spec §3): every neighbour entry of every
vertex names a vertex present in the table.  Every graph reachable
through `add_vertex`/`add_edge` satisfies it. -/
def Graph.Closed (g : Graph) : Prop :=
  ∀ kv ∈ g.vertices, ∀ p ∈ kv.2.neighbours, g.hasVertex p.1 = true

instance (g : Graph) : Decidable g.Closed := by
  unfold Graph.Closed; infer_instance

/-- Weight positivity (spec §3 invariant `weight > 0`): all stored edge
weights are positive, as is the case for every edge added with a
positive integer severity. -/
def Graph.WeightsPos (g : Graph) : Prop :=
  ∀ kv ∈ g.vertices, ∀ p ∈ kv.2.neighbours, 0 < p.2

instance (g : Graph) : Decidable g.WeightsPos := by
  unfold Graph.WeightsPos; infer_instance

/-- Spec-side formula for the multi-symptom raw score of one pair
(claim C1): the pair contributes `pathWeight(shortestPath(...))` to
disease `d` exactly when the shortest path contains a vertex of kind
`"disease"` equal to `d`. -/
def specPairContribution (g : Graph) (d : Name) (pr : Name × Name) : ℚ :=
  let p := (g.shortest_path pr.1 pr.2).getD []
  if g.get_vertex_kind d = some "disease" ∧ d ∈ p then
    (g.calculate_path_score p).getD 0
  else 0

/-! ### Concrete graphs used by witnesses and counterexamples -/

/-- The spec's running example: `Headache (symptom) — Flu (disease)`,
edge added with severity 2 (stored weight `1/2`). -/
def gHF : Graph :=
  ⟨[("Headache", ⟨"Headache", [("Flu", 1/2)], "symptom"⟩),
    ("Flu", ⟨"Flu", [("Headache", 1/2)], "disease"⟩)]⟩

/-- Two symptoms joined through one disease, severity 3 on both edges. -/
def gSDS : Graph :=
  ⟨[("s1", ⟨"s1", [("d", 1/3)], "symptom"⟩),
    ("d", ⟨"d", [("s1", 1/3), ("s2", 1/3)], "disease"⟩),
    ("s2", ⟨"s2", [("d", 1/3)], "symptom"⟩)]⟩

/-- Two isolated vertices (no edges yet). -/
def gAB : Graph :=
  ⟨[("A", ⟨"A", [], "symptom"⟩), ("B", ⟨"B", [], "disease"⟩)]⟩

/-! ### Lemma development -/

/-- A lookup succeeds exactly when the key occurs in the table. -/
theorem alookup_isSome_mem {α : Type} (l : List (Name × α)) (k : Name) :
    (alookup l k).isSome ↔ k ∈ l.map Prod.fst := by
  induction l with
  | nil => simp [alookup]
  | cons kv tl ih =>
    cases kv with
    | mk a b =>
      by_cases h : a = k
      · subst h; simp [alookup]
      · simp [alookup, h, ih, Ne.symm h]


/-! ### Association-list and lookup lemmas -/

theorem alookup_dictSet_self {α : Type} (m : List (Name × α)) (k : Name) (v : α) :
    alookup (dictSet m k v) k = some v := by
  induction m with
  | nil => simp [dictSet, alookup]
  | cons kv tl ih =>
    by_cases h : kv.1 = k
    · rw [← kv.eta]; simp [dictSet, h, alookup]
    · rw [← kv.eta]; simp only [dictSet, h, if_false]
      simp [alookup, h, ih]

theorem alookup_dictSet_ne {α : Type} (m : List (Name × α)) (k k' : Name) (v : α)
    (h : k' ≠ k) : alookup (dictSet m k v) k' = alookup m k' := by
  induction m with
  | nil => simp [dictSet, alookup, Ne.symm h]
  | cons kv tl ih =>
    by_cases hk : kv.1 = k
    · rw [← kv.eta]; simp [dictSet, hk, alookup, Ne.symm h]
    · rw [← kv.eta]; simp only [dictSet, hk, if_false]
      by_cases hk' : kv.1 = k'
      · simp [alookup, hk']
      · simp [alookup, hk', ih]

theorem dictGetD_dictSet_self {α : Type} (m : List (Name × α)) (k : Name) (v d : α) :
    dictGetD (dictSet m k v) k d = v := by
  simp [dictGetD, alookup_dictSet_self]

theorem dictGetD_dictSet_ne {α : Type} (m : List (Name × α)) (k k' : Name) (v d : α)
    (h : k' ≠ k) : dictGetD (dictSet m k v) k' d = dictGetD m k' d := by
  simp [dictGetD, alookup_dictSet_ne _ _ _ _ h]

theorem mem_dictSet {α : Type} (m : List (Name × α)) (k : Name) (v : α) :
    ∀ p ∈ dictSet m k v, p = (k, v) ∨ p ∈ m := by
  induction m with
  | nil => simp [dictSet]
  | cons kv tl ih =>
    intro p hp
    by_cases h : kv.1 = k
    · rw [← kv.eta] at hp
      simp only [dictSet, h, if_true, List.mem_cons] at hp
      rcases hp with h1 | h1
      · left; exact h1
      · right; exact List.mem_cons_of_mem _ h1
    · rw [← kv.eta] at hp
      simp only [dictSet, h, if_false, List.mem_cons] at hp
      rcases hp with h1 | h1
      · right; rw [h1]; exact List.mem_cons_self _ _
      · rcases ih p h1 with h2 | h2
        · left; exact h2
        · right; exact List.mem_cons_of_mem _ h2

theorem alookup_mem {α : Type} (m : List (Name × α)) (k : Name) (v : α)
    (h : alookup m k = some v) : (k, v) ∈ m := by
  induction m with
  | nil => simp [alookup] at h
  | cons kv tl ih =>
    by_cases hk : kv.1 = k
    · rw [← kv.eta] at h ⊢
      simp only [alookup, hk, if_true, Option.some.injEq] at h
      rw [List.mem_cons]
      left
      rw [Prod.mk.injEq]
      exact ⟨hk.symm, h.symm⟩
    · rw [← kv.eta] at h ⊢
      simp only [alookup, hk, if_false] at h
      exact List.mem_cons_of_mem _ (ih h)

/-! ### Presence and accessor lemmas -/

namespace Graph

theorem hasVertex_iff (g : Graph) (x : Name) :
    g.hasVertex x = true ↔ ∃ v, g.lookupV x = some v := by
  unfold hasVertex
  cases h : g.lookupV x <;> simp [h]

theorem get_neighbours_eq_some (g : Graph) (x : Name) (hx : g.hasVertex x = true) :
    ∃ l, g.get_neighbours x = some l := by
  rcases (g.hasVertex_iff x).mp hx with ⟨v, hv⟩
  exact ⟨(v.neighbours.map Prod.fst).dedup, by simp [get_neighbours, hv]⟩

theorem hasVertex_of_get_neighbours (g : Graph) (x : Name) (l : List Name)
    (h : g.get_neighbours x = some l) : g.hasVertex x = true := by
  unfold get_neighbours at h
  rcases Option.map_eq_some'.mp h with ⟨v, hv, -⟩
  exact (g.hasVertex_iff x).mpr ⟨v, hv⟩

theorem get_vertex_kind_eq_some (g : Graph) (x : Name) (hx : g.hasVertex x = true) :
    ∃ k, g.get_vertex_kind x = some k := by
  rcases (g.hasVertex_iff x).mp hx with ⟨v, hv⟩
  exact ⟨v.kind, by simp [get_vertex_kind, hv]⟩

theorem get_weight_of_edge_eq_some (g : Graph) (x y : Name) (hx : g.hasVertex x = true) :
    ∃ w, g.get_weight_of_edge x y = some w := by
  rcases (g.hasVertex_iff x).mp hx with ⟨v, hv⟩
  exact ⟨findWeight v.neighbours y, by simp [get_weight_of_edge, hv]⟩

theorem mem_keysFinset (g : Graph) (x : Name) :
    x ∈ g.keysFinset ↔ g.hasVertex x = true := by
  unfold keysFinset get_list_of_vertices
  rw [List.mem_toFinset, ← alookup_isSome_mem]
  unfold hasVertex lookupV
  simp

/-- Under referential integrity, a BFS step from anywhere lands on a
vertex present in the table. -/
theorem step_hasVertex (g : Graph) (hcl : g.Closed) (a b : Name)
    (h : step g a b) : g.hasVertex b = true := by
  rcases h with ⟨l, hl, hb⟩
  unfold get_neighbours at hl
  rcases Option.map_eq_some'.mp hl with ⟨v, hv, hmap⟩
  rw [← hmap] at hb
  rw [List.mem_dedup, List.mem_map] at hb
  rcases hb with ⟨p, hp, hfst⟩
  have := hcl (a, v) (alookup_mem _ _ _ hv) p hp
  rw [hfst] at this
  exact this

end Graph

/-! ### Fueled BFS: agreement with the loop and termination bound -/

theorem bfs_eq_of_bfsFuel (g : Graph) (e : Name) :
    ∀ fuel queue visited r, g.bfsFuel e fuel queue visited = some r →
      g.bfs e queue visited = r := by
  intro fuel
  induction fuel with
  | zero => intro q v r h; simp [Graph.bfsFuel] at h
  | succ n ih =>
    intro q v r h
    cases q with
    | nil =>
      simp only [Graph.bfsFuel, Option.some.injEq] at h
      rw [Graph.bfs, h]
    | cons path rest =>
      rw [Graph.bfs]
      simp only [Graph.bfsFuel] at h
      split
      next heq =>
        rw [heq] at h
        simp only [Option.some.injEq] at h
        exact h
      next node heq =>
        rw [heq] at h
        simp only at h
        split
        next hne =>
          rw [if_pos hne] at h
          simp only [Option.some.injEq] at h
          exact h
        next hne =>
          rw [if_neg hne] at h
          split
          next _ hvis =>
            rw [if_pos hvis] at h
            exact ih _ _ _ h
          next _ hvis =>
            rw [if_neg hvis] at h
            split
            next hnbs =>
              rw [hnbs] at h
              simp only [Option.some.injEq] at h
              exact h
            next nbs hnbs =>
              rw [hnbs] at h
              exact ih _ _ _ h

namespace Graph

theorem degOf_eq (g : Graph) (node : Name) (nbs : List Name)
    (h : g.get_neighbours node = some nbs) : g.degOf node = nbs.length := by
  simp [degOf, h]

theorem mem_keysFinset_of_nbrs (g : Graph) (node : Name) (nbs : List Name)
    (h : g.get_neighbours node = some nbs) : node ∈ g.keysFinset :=
  (g.mem_keysFinset node).mpr (g.hasVertex_of_get_neighbours node nbs h)

/-- Measure bookkeeping for an expansion step of the BFS loop. -/
theorem bfsMeasure_expand (g : Graph) (path : List Name) (rest : List (List Name))
    (visited : List Name) (node : Name) (nbs : List Name)
    (hvis : node ∉ visited) (hnbs : g.get_neighbours node = some nbs) :
    g.bfsMeasure (rest ++ nbs.map (fun nb => path ++ [nb])) (node :: visited) + 1 =
      g.bfsMeasure (path :: rest) visited := by
  have hnode : node ∈ g.keysFinset \ visited.toFinset := by
    rw [Finset.mem_sdiff, List.mem_toFinset]
    exact ⟨g.mem_keysFinset_of_nbrs node nbs hnbs, hvis⟩
  have hsdiff : g.keysFinset \ (node :: visited).toFinset =
      (g.keysFinset \ visited.toFinset).erase node := by
    rw [List.toFinset_cons, Finset.sdiff_insert]
  have hsum := Finset.sum_erase_add (g.keysFinset \ visited.toFinset) g.degOf hnode
  unfold bfsMeasure
  rw [hsdiff]
  have hdeg := g.degOf_eq node nbs hnbs
  simp only [List.length_append, List.length_map, List.length_cons]
  omega

theorem bfsFuel_isSome (g : Graph) (e : Name) :
    ∀ fuel queue visited, g.bfsMeasure queue visited < fuel →
      (g.bfsFuel e fuel queue visited).isSome := by
  intro fuel
  induction fuel with
  | zero => intro q v h; exact absurd h (Nat.not_lt_zero _)
  | succ n ih =>
    intro q v h
    cases q with
    | nil => simp [Graph.bfsFuel]
    | cons path rest =>
      simp only [Graph.bfsFuel]
      cases hl : path.getLast? with
      | none => simp
      | some node =>
        simp only
        by_cases hne : node = e
        · simp [hne]
        · rw [if_neg hne]
          by_cases hvis : node ∈ v
          · rw [if_pos hvis]
            apply ih
            have : g.bfsMeasure rest v + 1 = g.bfsMeasure (path :: rest) v := by
              unfold bfsMeasure
              simp only [List.length_cons]
              omega
            omega
          · rw [if_neg hvis]
            cases hnbs : g.get_neighbours node with
            | none => simp
            | some nbs =>
              apply ih
              have := g.bfsMeasure_expand path rest v node nbs hvis hnbs
              omega

end Graph

/-! ### Walks: shortening, closure, and the frontier-reach lemma -/

theorem pairwise_always {α : Type} (R : α → α → Prop) (h : ∀ a b, R a b) :
    ∀ l : List α, l.Pairwise R := by
  intro l
  induction l with
  | nil => exact List.Pairwise.nil
  | cons a t ih => exact List.pairwise_cons.mpr ⟨fun b _ => h a b, ih⟩

theorem exists_dup_split {α : Type} [DecidableEq α] :
    ∀ l : List α, ¬ l.Nodup → ∃ (x : α) (l₁ l₂ l₃ : List α), l = l₁ ++ x :: l₂ ++ x :: l₃ := by
  intro l
  induction l with
  | nil => intro h; exact absurd List.nodup_nil h
  | cons a t ih =>
    intro h
    by_cases ha : a ∈ t
    · rcases List.append_of_mem ha with ⟨s₁, s₂, hs⟩
      exact ⟨a, [], s₁, s₂, by simp [hs]⟩
    · have hnd : ¬ t.Nodup := fun hd => h (List.nodup_cons.mpr ⟨ha, hd⟩)
      rcases ih hnd with ⟨x, l₁, l₂, l₃, hl⟩
      exact ⟨x, a :: l₁, l₂, l₃, by simp [hl]⟩

/-- The last element of a list ending in a fixed nonempty tail. -/
theorem getLast?_append_cons {α : Type} (l₀ : List α) (c : α) (l' : List α) :
    (l₀ ++ c :: l').getLast? = (c :: l').getLast? := by
  cases h : (c :: l').getLast? with
  | none => simp [List.getLast?_eq_none_iff] at h
  | some z => exact List.mem_getLast?_append_of_mem_getLast? h

/-- Cutting the cycle between two occurrences of the same vertex
shortens a walk while keeping it a walk with the same endpoints. -/
theorem isWalk_shorten (g : Graph) (s e : Name) (w : List Name)
    (hw : IsWalk g s e w) (hnd : ¬ w.Nodup) :
    ∃ w', IsWalk g s e w' ∧ w'.length < w.length := by
  rcases exists_dup_split w hnd with ⟨x, l₁, l₂, l₃, rfl⟩
  rcases hw with ⟨-, hhead, hlast, hmem, hchain⟩
  have hassoc : (l₁ ++ x :: l₂) ++ x :: l₃ = l₁ ++ ((x :: l₂) ++ x :: l₃) :=
    List.append_assoc l₁ (x :: l₂) (x :: l₃)
  rw [hassoc] at hhead hchain
  refine ⟨l₁ ++ x :: l₃, ⟨by simp, ?_, ?_, ?_, ?_⟩, by simp; omega⟩
  · -- head is preserved
    by_cases h1 : l₁ = []
    · subst h1; simpa using hhead
    · rw [List.head?_append_of_ne_nil l₁ h1]
      rw [List.head?_append_of_ne_nil l₁ h1] at hhead
      exact hhead
  · -- last is preserved
    rw [getLast?_append_cons l₁ x l₃]
    rw [getLast?_append_cons (l₁ ++ x :: l₂) x l₃] at hlast
    exact hlast
  · -- membership is preserved
    intro y hy
    apply hmem
    simp only [List.mem_append, List.mem_cons] at hy ⊢
    tauto
  · -- the chain survives the cut
    rcases List.chain'_append.mp hchain with ⟨hc1, hc23, hlink⟩
    rcases List.chain'_append.mp hc23 with ⟨-, hc3, -⟩
    apply List.chain'_append.mpr
    refine ⟨hc1, hc3, ?_⟩
    intro a ha b hb
    have hbx : x = b := by simpa using hb
    subst hbx
    apply hlink a ha
    simp

/-- If the visited set is closed under BFS steps, a chain starting at a
visited vertex stays inside the visited set. -/
theorem chain_all_visited (g : Graph) (visited : List Name)
    (hclosure : ∀ v ∈ visited, ∀ u, step g v u → u ∈ visited) :
    ∀ (l : List Name) (a : Name), List.Chain' (step g) (a :: l) → a ∈ visited →
      ∀ x ∈ a :: l, x ∈ visited := by
  intro l
  induction l with
  | nil =>
    intro a _ ha x hx
    rcases List.mem_cons.mp hx with rfl | hx'
    · exact ha
    · simp at hx'
  | cons b t ih =>
    intro a hchain ha x hx
    have hstep : step g a b := (List.chain'_cons.mp hchain).1
    have hb : b ∈ visited := hclosure a ha b hstep
    rcases List.mem_cons.mp hx with rfl | hx'
    · exact ha
    · exact ih b (List.chain'_cons.mp hchain).2 hb x hx'

/-- The quantitative frontier lemma: along any walk starting at `s`,
either the endpoint is visited at a level bounded by the walk length,
or some queued path is no longer than the walk. -/
theorem reach_aux (g : Graph) (s : Name) (queue : List (List Name)) (visited : List Name)
    (lv : Name → ℕ)
    (hb : ∀ v ∈ visited, ∀ u, step g v u →
        (u ∈ visited ∧ lv u ≤ lv v + 1) ∨
          ∃ q ∈ queue, q.getLast? = some u ∧ q.length ≤ lv v + 2)
    (hc1 : s ∈ visited → lv s = 0)
    (hc2 : s ∉ visited → ∃ q ∈ queue, q.getLast? = some s ∧ q.length ≤ 1) :
    ∀ w : List Name, w ≠ [] → w.head? = some s → List.Chain' (step g) w →
      ∀ t, w.getLast? = some t →
        (t ∈ visited ∧ lv t + 1 ≤ w.length) ∨ ∃ q ∈ queue, q.length ≤ w.length := by
  intro w
  induction w using List.reverseRecOn with
  | nil => intro h; exact absurd rfl h
  | append_singleton ys y ih =>
    intro hne hhead hchain t hlast
    have hty : t = y := by
      rw [show (ys ++ [y]).getLast? = some y by simp] at hlast
      exact (Option.some.injEq _ _ ▸ hlast).symm
    subst hty
    by_cases hys : ys = []
    · subst hys
      have hys2 : t = s := by simpa using hhead
      subst hys2
      by_cases hsv : t ∈ visited
      · left; exact ⟨hsv, by simp [hc1 hsv]⟩
      · right
        rcases hc2 hsv with ⟨q, hq, -, hlen⟩
        exact ⟨q, hq, by simpa using hlen⟩
    · obtain ⟨u, hu⟩ : ∃ u, ys.getLast? = some u := by
        cases h : ys.getLast? with
        | none => rw [List.getLast?_eq_none_iff] at h; exact absurd h hys
        | some z => exact ⟨z, rfl⟩
      have hchain_ys : List.Chain' (step g) ys := (List.chain'_append.mp hchain).1
      have hlink : step g u t := by
        have hl := (List.chain'_append.mp hchain).2.2
        exact hl u hu t rfl
      have hhead_ys : ys.head? = some s := by
        rw [List.head?_append_of_ne_nil ys hys] at hhead
        exact hhead
      rcases ih hys hhead_ys hchain_ys u hu with ⟨huv, hulen⟩ | ⟨q, hq, hqlen⟩
      · rcases hb u huv t hlink with ⟨htv, hlt⟩ | ⟨q, hq, -, hqlen⟩
        · left
          refine ⟨htv, ?_⟩
          simp only [List.length_append, List.length_cons, List.length_nil]
          omega
        · right
          refine ⟨q, hq, ?_⟩
          simp only [List.length_append, List.length_cons, List.length_nil]
          omega
      · right
        refine ⟨q, hq, ?_⟩
        simp only [List.length_append, List.length_cons, List.length_nil]
        omega

/-! ### The BFS master lemma -/

/-- Invariant-carrying induction over the BFS loop: with enough fuel
and the frontier invariants, the loop terminates without exception,
returns a shortest walk when one exists, and returns `[]` exactly when
no walk exists. -/
theorem bfs_master (g : Graph) (s e : Name) (hcl : g.Closed) :
    ∀ (fuel : ℕ) (queue : List (List Name)) (visited : List Name) (lv : Name → ℕ),
      g.bfsMeasure queue visited < fuel →
      (∀ p ∈ queue, p ≠ [] ∧ p.head? = some s ∧ List.Chain' (step g) p) →
      (∀ p ∈ queue, ∀ x ∈ p, g.hasVertex x = true) →
      List.Pairwise (fun p q : List Name => p.length ≤ q.length) queue →
      (∀ p ∈ queue, ∀ q ∈ queue, p.length ≤ q.length + 1) →
      (∀ v ∈ visited, ∀ q ∈ queue, lv v + 1 ≤ q.length) →
      (∀ v ∈ visited, ∀ u, step g v u →
        (u ∈ visited ∧ lv u ≤ lv v + 1) ∨
          ∃ q ∈ queue, q.getLast? = some u ∧ q.length ≤ lv v + 2) →
      (s ∈ visited → lv s = 0) →
      (s ∉ visited → ∃ q ∈ queue, q.getLast? = some s ∧ q.length ≤ 1) →
      e ∉ visited →
      ∃ r, g.bfsFuel e fuel queue visited = some (some r) ∧
        (r = [] → ∀ w, ¬ IsWalk g s e w) ∧
        (r ≠ [] → IsWalk g s e r ∧ ∀ w, IsWalk g s e w → r.length ≤ w.length) := by
  intro fuel
  induction fuel with
  | zero =>
    intro queue visited lv hM
    exact absurd hM (Nat.not_lt_zero _)
  | succ n ih =>
    intro queue visited lv hM h1 h6 h2 h3 h4a h4b hc1 hc2 h5
    cases queue with
    | nil =>
      refine ⟨[], rfl, ?_, fun h => absurd rfl h⟩
      intro _ w hw
      rcases hw with ⟨hne, hhead, hlast, -, hchain⟩
      have hsv : s ∈ visited := by
        by_contra hs
        rcases hc2 hs with ⟨q, hq, -⟩
        exact absurd hq (List.not_mem_nil q)
      have hclosure : ∀ v ∈ visited, ∀ u, step g v u → u ∈ visited := by
        intro v hv u hstep
        rcases h4b v hv u hstep with ⟨h, -⟩ | ⟨q, hq, -⟩
        · exact h
        · exact absurd hq (List.not_mem_nil q)
      cases w with
      | nil => exact hne rfl
      | cons a tl =>
        have has : a = s := by simpa using hhead
        subst has
        have hall : ∀ x ∈ a :: tl, x ∈ visited :=
          chain_all_visited g visited hclosure tl a hchain hsv
        exact h5 (hall e (List.mem_of_mem_getLast? hlast))
    | cons path rest =>
      obtain ⟨hpne, hphead, hpchain⟩ := h1 path (List.mem_cons_self _ _)
      obtain ⟨node, hnode⟩ : ∃ node, path.getLast? = some node := by
        cases h : path.getLast? with
        | none => rw [List.getLast?_eq_none_iff] at h; exact absurd h hpne
        | some z => exact ⟨z, rfl⟩
      have hsorted_head : ∀ q ∈ rest, path.length ≤ q.length :=
        (List.pairwise_cons.mp h2).1
      have hspread : ∀ q ∈ path :: rest, q.length ≤ path.length + 1 :=
        fun q hq => h3 q hq path (List.mem_cons_self _ _)
      simp only [Graph.bfsFuel, hnode]
      by_cases hne : node = e
      · -- the popped path ends at the target: return it
        rw [if_pos hne]
        refine ⟨path, rfl, fun hp => absurd hp hpne, fun _ => ?_⟩
        have hwalk : IsWalk g s e path :=
          ⟨hpne, hphead, hne ▸ hnode, h6 path (List.mem_cons_self _ _), hpchain⟩
        refine ⟨hwalk, ?_⟩
        intro w hw
        rcases hw with ⟨hwne, hwhead, hwlast, -, hwchain⟩
        rcases reach_aux g s (path :: rest) visited lv h4b hc1 hc2 w hwne hwhead hwchain
            e hwlast with ⟨hev, -⟩ | ⟨q, hq, hqlen⟩
        · exact absurd hev h5
        · have hpq : path.length ≤ q.length := by
            rcases List.mem_cons.mp hq with rfl | hq'
            · exact le_refl _
            · exact hsorted_head q hq'
          omega
      · rw [if_neg hne]
        by_cases hvis : node ∈ visited
        · -- pop a path whose tail vertex was already expanded: discard it
          rw [if_pos hvis]
          apply ih rest visited lv
          · have : g.bfsMeasure rest visited + 1 = g.bfsMeasure (path :: rest) visited := by
              unfold Graph.bfsMeasure
              simp only [List.length_cons]
              omega
            omega
          · exact fun p hp => h1 p (List.mem_cons_of_mem _ hp)
          · exact fun p hp => h6 p (List.mem_cons_of_mem _ hp)
          · exact (List.pairwise_cons.mp h2).2
          · exact fun p hp q hq =>
              h3 p (List.mem_cons_of_mem _ hp) q (List.mem_cons_of_mem _ hq)
          · exact fun v hv q hq => h4a v hv q (List.mem_cons_of_mem _ hq)
          · intro v hv u hstep
            rcases h4b v hv u hstep with hleft | ⟨q, hq, hql, hqlen⟩
            · exact Or.inl hleft
            · rcases List.mem_cons.mp hq with rfl | hq'
              · -- the dropped path was the witness: its endpoint is the
                -- visited node, whose level is controlled by h4a
                have hun : u = node := by
                  rw [hnode] at hql
                  exact (Option.some.inj hql).symm
                subst hun
                have := h4a u hvis q (List.mem_cons_self _ _)
                exact Or.inl ⟨hvis, by omega⟩
              · exact Or.inr ⟨q, hq', hql, hqlen⟩
          · exact hc1
          · intro hs
            rcases hc2 hs with ⟨q, hq, hql, hqlen⟩
            rcases List.mem_cons.mp hq with rfl | hq'
            · have : s = node := by
                rw [hnode] at hql
                exact (Option.some.inj hql).symm
              rw [this] at hs
              exact absurd hvis hs
            · exact ⟨q, hq', hql, hqlen⟩
          · exact h5
        · -- expand the new node
          rw [if_neg hvis]
          have hnodek : g.hasVertex node = true :=
            h6 path (List.mem_cons_self _ _) node (List.mem_of_mem_getLast? hnode)
          obtain ⟨nbs, hnbs⟩ := g.get_neighbours_eq_some node hnodek
          simp only [hnbs]
          have hplen : 1 ≤ path.length := by
            cases path with
            | nil => exact absurd rfl hpne
            | cons a t => simp
          apply ih (rest ++ nbs.map (fun nb => path ++ [nb])) (node :: visited)
              (fun v => if v = node then path.length - 1 else lv v)
          · have := g.bfsMeasure_expand path rest visited node nbs hvis hnbs
            omega
          · -- h1: queue paths are walks from s
            intro p hp
            rcases List.mem_append.mp hp with hp' | hp'
            · exact h1 p (List.mem_cons_of_mem _ hp')
            · rcases List.mem_map.mp hp' with ⟨nb, hnb, rfl⟩
              refine ⟨by simp, ?_, ?_⟩
              · rw [List.head?_append_of_ne_nil path hpne]
                exact hphead
              · apply List.chain'_append.mpr
                refine ⟨hpchain, List.chain'_singleton _, ?_⟩
                intro a ha b hb
                have hax : node = a := by
                  rw [hnode] at ha
                  simpa using ha
                have hbx : nb = b := by simpa using hb
                subst hax; subst hbx
                exact ⟨nbs, hnbs, hnb⟩
          · -- h6: queue vertices are present
            intro p hp
            rcases List.mem_append.mp hp with hp' | hp'
            · exact h6 p (List.mem_cons_of_mem _ hp')
            · rcases List.mem_map.mp hp' with ⟨nb, hnb, rfl⟩
              intro x hx
              rcases List.mem_append.mp hx with hx' | hx'
              · exact h6 path (List.mem_cons_self _ _) x hx'
              · have hxnb : x = nb := by simpa using hx'
                subst hxnb
                exact g.step_hasVertex hcl node x ⟨nbs, hnbs, hnb⟩
          · -- h2: lengths stay sorted
            apply List.pairwise_append.mpr
            refine ⟨(List.pairwise_cons.mp h2).2, ?_, ?_⟩
            · apply List.pairwise_map.mpr
              apply pairwise_always
              intro a b
              simp
            · intro a ha b hb
              rcases List.mem_map.mp hb with ⟨nb, -, rfl⟩
              have := hspread a (List.mem_cons_of_mem _ ha)
              simp only [List.length_append, List.length_cons, List.length_nil]
              omega
          · -- h3: length spread stays within one
            intro p hp q hq
            rcases List.mem_append.mp hp with hp' | hp' <;>
              rcases List.mem_append.mp hq with hq' | hq'
            · exact h3 p (List.mem_cons_of_mem _ hp') q (List.mem_cons_of_mem _ hq')
            · rcases List.mem_map.mp hq' with ⟨nb, -, rfl⟩
              have := hspread p (List.mem_cons_of_mem _ hp')
              simp only [List.length_append, List.length_cons, List.length_nil]
              omega
            · rcases List.mem_map.mp hp' with ⟨nb, -, rfl⟩
              have := hsorted_head q hq'
              simp only [List.length_append, List.length_cons, List.length_nil]
              omega
            · rcases List.mem_map.mp hp' with ⟨nb, -, rfl⟩
              rcases List.mem_map.mp hq' with ⟨nb', -, rfl⟩
              simp
          · -- h4a: visited levels bound queued lengths
            intro v hv q hq
            rcases List.mem_cons.mp hv with rfl | hv'
            · rw [if_pos rfl]
              rcases List.mem_append.mp hq with hq' | hq'
              · have := hsorted_head q hq'
                omega
              · rcases List.mem_map.mp hq' with ⟨nb, -, rfl⟩
                simp only [List.length_append, List.length_cons, List.length_nil]
                omega
            · have hvne : v ≠ node := fun h => hvis (h ▸ hv')
              rw [if_neg hvne]
              rcases List.mem_append.mp hq with hq' | hq'
              · exact h4a v hv' q (List.mem_cons_of_mem _ hq')
              · rcases List.mem_map.mp hq' with ⟨nb, -, rfl⟩
                have := h4a v hv' path (List.mem_cons_self _ _)
                simp only [List.length_append, List.length_cons, List.length_nil]
                omega
          · -- h4b: the frontier covers the boundary of the visited set
            intro v hv u hstep
            rcases List.mem_cons.mp hv with rfl | hv'
            · -- steps out of the freshly expanded node: covered by the
              -- freshly enqueued extensions
              rcases hstep with ⟨l, hl, hu⟩
              rw [hnbs] at hl
              have hlnbs : nbs = l := by simpa using hl
              subst hlnbs
              right
              refine ⟨path ++ [u], List.mem_append_right _ (List.mem_map.mpr ⟨u, hu, rfl⟩),
                by simp, ?_⟩
              rw [if_pos rfl]
              simp only [List.length_append, List.length_cons, List.length_nil]
              omega
            · have hvne : v ≠ node := fun h => hvis (h ▸ hv')
              rw [if_neg hvne]
              rcases h4b v hv' u hstep with ⟨huv, hlu⟩ | ⟨q, hq, hql, hqlen⟩
              · have hune : u ≠ node := fun h => hvis (h ▸ huv)
                rw [if_neg hune]
                exact Or.inl ⟨List.mem_cons_of_mem _ huv, hlu⟩
              · rcases List.mem_cons.mp hq with rfl | hq'
                · have hun : u = node := by
                    rw [hnode] at hql
                    exact (Option.some.inj hql).symm
                  subst hun
                  left
                  refine ⟨List.mem_cons_self _ _, ?_⟩
                  rw [if_pos rfl]
                  omega
                · exact Or.inr ⟨q, List.mem_append_left _ hq', hql, hqlen⟩
          · -- hc1: the start keeps level zero
            intro hs
            rcases List.mem_cons.mp hs with rfl | hs'
            · rw [if_pos rfl]
              have hs2 : s ∉ visited := hvis
              rcases hc2 hs2 with ⟨q, hq, hql, hqlen⟩
              have hq1 : 1 ≤ q.length := by
                have := (h1 q hq).1
                cases q with
                | nil => exact absurd rfl this
                | cons a t => simp
              have hpq : path.length ≤ q.length := by
                rcases List.mem_cons.mp hq with rfl | hq'
                · exact le_refl _
                · exact hsorted_head q hq'
              omega
            · have hsne : s ≠ node := fun h => hvis (h ▸ hs')
              rw [if_neg hsne]
              exact hc1 hs'
          · -- hc2: the start witness survives
            intro hs
            have hs1 : s ≠ node := fun h => hs (h ▸ List.mem_cons_self _ _)
            have hs2 : s ∉ visited := fun h => hs (List.mem_cons_of_mem _ h)
            rcases hc2 hs2 with ⟨q, hq, hql, hqlen⟩
            rcases List.mem_cons.mp hq with rfl | hq'
            · have : s = node := by
                rw [hnode] at hql
                exact (Option.some.inj hql).symm
              exact absurd this hs1
            · exact ⟨q, List.mem_append_left _ hq', hql, hqlen⟩
          · -- h5: the target is still unvisited
            intro h
            rcases List.mem_cons.mp h with rfl | h'
            · exact hne rfl
            · exact h5 h'

/-! ### Shortest-path corollaries -/

/-- The full BFS specification of `shortest_path` on a closed graph
with both endpoints present: it raises no exception, returns `[]`
exactly when no walk exists, and otherwise returns a hop-count-minimal
walk from `s` to `e`. -/
theorem shortest_path_spec (g : Graph) (s e : Name) (hcl : g.Closed)
    (hs : g.hasVertex s = true) (he : g.hasVertex e = true) :
    ∃ r, g.shortest_path s e = some r ∧
      (r = [] → ∀ w, ¬ IsWalk g s e w) ∧
      (r ≠ [] → IsWalk g s e r ∧ ∀ w, IsWalk g s e w → r.length ≤ w.length) := by
  obtain ⟨r, hfuel, hx⟩ :=
    bfs_master g s e hcl (g.bfsMeasure [[s]] [] + 1) [[s]] [] (fun _ => 0)
      (by omega)
      (by
        intro p hp
        have hp' : p = [s] := by simpa using hp
        subst hp'
        exact ⟨by simp, rfl, by simp⟩)
      (by
        intro p hp
        have hp' : p = [s] := by simpa using hp
        subst hp'
        intro x hx
        have hx' : x = s := by simpa using hx
        subst hx'
        exact hs)
      (by simp)
      (by
        intro p hp q hq
        have hp' : p = [s] := by simpa using hp
        have hq' : q = [s] := by simpa using hq
        subst hp'; subst hq'
        simp)
      (by simp)
      (by
        intro v hv u hstep
        simp at hv)
      (by intro h; simp at h)
      (by intro _; exact ⟨[s], by simp, by simp, by simp⟩)
      (by simp)
  have hbfs : g.bfs e [[s]] [] = some r := bfs_eq_of_bfsFuel g e _ _ _ _ hfuel
  refine ⟨r, ?_, hx⟩
  simp only [Graph.shortest_path, hs, he]
  simpa using hbfs

/-- When either endpoint is absent the guard returns the empty path. -/
theorem shortest_path_absent (g : Graph) (s e : Name)
    (h : ¬ (g.hasVertex s = true ∧ g.hasVertex e = true)) :
    g.shortest_path s e = some [] := by
  simp only [Graph.shortest_path]
  rw [if_neg]
  simpa using h

/-- `shortest_path(x, x)` immediately pops `[x]` and returns it. -/
theorem shortest_path_self (g : Graph) (x : Name) (hx : g.hasVertex x = true) :
    g.shortest_path x x = some [x] := by
  have h1 : g.bfsFuel x 1 [[x]] [] = some (some [x]) := by
    simp [Graph.bfsFuel]
  have h2 := bfs_eq_of_bfsFuel g x 1 [[x]] [] (some [x]) h1
  simp only [Graph.shortest_path, hx]
  simpa using h2

/-- A nonempty result of `shortest_path` is duplicate-free: a repeated
vertex could be cut out, contradicting hop-count minimality. -/
theorem shortest_path_nodup (g : Graph) (s e : Name) (r : List Name) (hcl : g.Closed)
    (hs : g.hasVertex s = true) (he : g.hasVertex e = true)
    (hr : g.shortest_path s e = some r) (hne : r ≠ []) : r.Nodup := by
  obtain ⟨r', hr', -, hmin⟩ := shortest_path_spec g s e hcl hs he
  rw [hr] at hr'
  have hrr : r' = r := by simpa using hr'.symm
  rw [hrr] at hmin
  rcases hmin hne with ⟨hwalk, hleast⟩
  by_contra hnd
  obtain ⟨w', hw', hlt⟩ := isWalk_shorten g s e r hwalk hnd
  have := hleast w' hw'
  omega

/-- A nonempty result of `shortest_path` is a walk of the graph. -/
theorem shortest_path_isWalk (g : Graph) (s e : Name) (r : List Name) (hcl : g.Closed)
    (hs : g.hasVertex s = true) (he : g.hasVertex e = true)
    (hr : g.shortest_path s e = some r) (hne : r ≠ []) : IsWalk g s e r := by
  obtain ⟨r', hr', -, hmin⟩ := shortest_path_spec g s e hcl hs he
  rw [hr] at hr'
  have hrr : r' = r := by simpa using hr'.symm
  rw [hrr] at hmin
  exact (hmin hne).1

/-- The initial BFS measure is one more than the total degree. -/
theorem bfsMeasure_init (g : Graph) (s : Name) :
    g.bfsMeasure [[s]] [] = 1 + g.totalDeg := by
  unfold Graph.bfsMeasure Graph.totalDeg
  simp

/-! ### Path-score and raw-score lemmas -/

theorem findWeight_nonneg (l : List (Name × ℚ)) (y : Name)
    (h : ∀ pr ∈ l, 0 ≤ pr.2) : 0 ≤ Graph.findWeight l y := by
  induction l with
  | nil => simp [Graph.findWeight]
  | cons pr rest ih =>
    rw [← pr.eta]
    simp only [Graph.findWeight]
    by_cases hy : pr.1 = y
    · rw [if_pos hy]
      exact h pr (List.mem_cons_self _ _)
    · rw [if_neg hy]
      exact ih fun q hq => h q (List.mem_cons_of_mem _ hq)

theorem get_weight_of_edge_nonneg (g : Graph) (hwp : g.WeightsPos) (a b : Name) (w : ℚ)
    (h : g.get_weight_of_edge a b = some w) : 0 ≤ w := by
  unfold Graph.get_weight_of_edge at h
  rcases Option.map_eq_some'.mp h with ⟨v, hv, hw⟩
  have hpos := hwp (a, v) (alookup_mem _ _ _ hv)
  rw [← hw]
  exact findWeight_nonneg _ _ fun pr hpr => le_of_lt (hpos pr hpr)

theorem calculate_path_score_isSome (g : Graph) :
    ∀ p : List Name, (∀ x ∈ p, g.hasVertex x = true) →
      ∃ q, g.calculate_path_score p = some q := by
  intro p
  induction p with
  | nil => exact fun _ => ⟨0, rfl⟩
  | cons a t ih =>
    intro h
    cases t with
    | nil => exact ⟨0, rfl⟩
    | cons b t' =>
      obtain ⟨w, hw⟩ := g.get_weight_of_edge_eq_some a b (h a (List.mem_cons_self _ _))
      obtain ⟨q, hq⟩ := ih fun x hx => h x (List.mem_cons_of_mem _ hx)
      exact ⟨w + q, by simp [Graph.calculate_path_score, hw, hq]⟩

theorem calculate_path_score_nonneg (g : Graph) (hwp : g.WeightsPos) :
    ∀ p : List Name, ∀ q : ℚ, g.calculate_path_score p = some q → 0 ≤ q := by
  intro p
  induction p with
  | nil =>
    intro q h
    have hq : (0 : ℚ) = q := by simpa [Graph.calculate_path_score] using h
    rw [← hq]
  | cons a t ih =>
    intro q h
    cases t with
    | nil =>
      have hq : (0 : ℚ) = q := by simpa [Graph.calculate_path_score] using h
      rw [← hq]
    | cons b t' =>
      simp only [Graph.calculate_path_score] at h
      cases hgw : g.get_weight_of_edge a b with
      | none => rw [hgw] at h; simp at h
      | some w =>
        rw [hgw] at h
        cases hcp : g.calculate_path_score (b :: t') with
        | none => rw [hcp] at h; simp at h
        | some r =>
          rw [hcp] at h
          simp only [Option.bind_eq_bind, Option.some_bind, Option.pure_def, Option.some.injEq] at h
          have h1 := get_weight_of_edge_nonneg g hwp a b w hgw
          have h2 := ih r hcp
          rw [← h]
          exact add_nonneg h1 h2

theorem dictGetD_nonneg (m : List (Name × ℚ)) (k : Name)
    (hm : ∀ p ∈ m, 0 ≤ p.2) : 0 ≤ dictGetD m k 0 := by
  unfold dictGetD
  cases h : alookup m k with
  | none => simp
  | some q =>
    simp only [Option.getD_some]
    exact hm (k, q) (alookup_mem _ _ _ h)

theorem singleAccum_nonneg (g : Graph) (hwp : g.WeightsPos) (s0 : Name) :
    ∀ (l : List Name) (m m' : List (Name × ℚ)), (∀ p ∈ m, 0 ≤ p.2) →
      singleAccum g s0 m l = some m' → ∀ p ∈ m', 0 ≤ p.2 := by
  intro l
  induction l with
  | nil =>
    intro m m' hm h
    have : m = m' := by simpa [singleAccum] using h
    rw [← this]; exact hm
  | cons nb rest ih =>
    intro m m' hm h
    simp only [singleAccum] at h
    cases hgw : g.get_weight_of_edge nb s0 with
    | none => rw [hgw] at h; simp at h
    | some w =>
      rw [hgw] at h
      simp only [Option.bind_eq_bind, Option.some_bind] at h
      apply ih _ _ _ h
      intro p hp
      rcases mem_dictSet m nb w p hp with h1 | h1
      · rw [h1]
        exact get_weight_of_edge_nonneg g hwp nb s0 w hgw
      · exact hm p h1

theorem diseaseAccum_nonneg (g : Graph) (hwp : g.WeightsPos) (path : List Name) :
    ∀ (l : List Name) (m m' : List (Name × ℚ)), (∀ p ∈ m, 0 ≤ p.2) →
      diseaseAccum g path m l = some m' → ∀ p ∈ m', 0 ≤ p.2 := by
  intro l
  induction l with
  | nil =>
    intro m m' hm h
    have : m = m' := by simpa [diseaseAccum] using h
    rw [← this]; exact hm
  | cons v rest ih =>
    intro m m' hm h
    simp only [diseaseAccum] at h
    cases hk : g.get_vertex_kind v with
    | none => rw [hk] at h; simp at h
    | some k =>
      rw [hk] at h
      simp only [Option.bind_eq_bind, Option.some_bind] at h
      by_cases hkd : k = "disease"
      · rw [if_pos hkd] at h
        cases hcp : g.calculate_path_score path with
        | none => rw [hcp] at h; simp at h
        | some ps =>
          rw [hcp] at h
          simp only [Option.bind_eq_bind, Option.some_bind] at h
          apply ih _ _ _ h
          intro p hp
          rcases mem_dictSet m v (dictGetD m v 0 + ps) p hp with h1 | h1
          · rw [h1]
            have h2 := dictGetD_nonneg m v hm
            have h3 := calculate_path_score_nonneg g hwp path ps hcp
            exact add_nonneg h2 h3
          · exact hm p h1
      · rw [if_neg hkd] at h
        exact ih _ _ hm h

theorem multiScores_nonneg (g : Graph) (hwp : g.WeightsPos) :
    ∀ (prs : List (Name × Name)) (m m' : List (Name × ℚ)), (∀ p ∈ m, 0 ≤ p.2) →
      multiScores g prs m = some m' → ∀ p ∈ m', 0 ≤ p.2 := by
  intro prs
  induction prs with
  | nil =>
    intro m m' hm h
    have : m = m' := by simpa [multiScores] using h
    rw [← this]; exact hm
  | cons pr rest ih =>
    intro m m' hm h
    rcases pr with ⟨s1, s2⟩
    simp only [multiScores] at h
    cases hsp : g.shortest_path s1 s2 with
    | none => rw [hsp] at h; simp at h
    | some path =>
      rw [hsp] at h
      simp only [Option.bind_eq_bind, Option.some_bind] at h
      cases hda : diseaseAccum g path m path with
      | none => rw [hda] at h; simp at h
      | some m1 =>
        rw [hda] at h
        simp only [Option.bind_eq_bind, Option.some_bind] at h
        exact ih m1 m' (diseaseAccum_nonneg g hwp path path m m1 hm hda) h

/-- Every raw score the scorer produces is nonnegative on a graph with
positive weights. -/
theorem rawScores_nonneg (g : Graph) (hwp : g.WeightsPos) (symptoms : List Name)
    (raw : List (Name × ℚ)) (h : rawScores g symptoms = some raw) :
    ∀ p ∈ raw, 0 ≤ p.2 := by
  cases symptoms with
  | nil =>
    exact multiScores_nonneg g hwp _ [] raw (by simp) h
  | cons a t =>
    cases t with
    | nil =>
      simp only [rawScores] at h
      cases hn : g.get_neighbours a with
      | none => rw [hn] at h; simp at h
      | some nbs =>
        rw [hn] at h
        simp only [Option.bind_eq_bind, Option.some_bind] at h
        exact singleAccum_nonneg g hwp a nbs [] raw (by simp) h
    | cons b t' =>
      exact multiScores_nonneg g hwp _ [] raw (by simp) h

/-! ### Characterizing the accumulated raw scores -/

/-- The inner path loop adds `pathScore` to a disease's entry once per
occurrence of that disease among the iterated vertices. -/
theorem diseaseAccum_spec (g : Graph) (path : List Name) (ps : ℚ)
    (hps : g.calculate_path_score path = some ps) :
    ∀ (l : List Name) (m : List (Name × ℚ)), (∀ v ∈ l, g.hasVertex v = true) →
      ∃ m', diseaseAccum g path m l = some m' ∧
        ∀ d, dictGetD m' d 0 = dictGetD m d 0 +
          (if g.get_vertex_kind d = some "disease" then (l.count d : ℚ) * ps else 0) := by
  intro l
  induction l with
  | nil =>
    intro m _
    exact ⟨m, rfl, by intro d; simp⟩
  | cons v rest ih =>
    intro m hm
    obtain ⟨k, hk⟩ := g.get_vertex_kind_eq_some v (hm v (List.mem_cons_self _ _))
    by_cases hkd : k = "disease"
    · subst hkd
      obtain ⟨m', hm', hchar⟩ :=
        ih (dictSet m v (dictGetD m v 0 + ps)) fun x hx => hm x (List.mem_cons_of_mem _ hx)
      refine ⟨m', ?_, ?_⟩
      · simp only [diseaseAccum, hk, Option.bind_eq_bind, Option.some_bind, if_pos rfl, hps]
        exact hm'
      · intro d
        rw [hchar d]
        by_cases hdv : d = v
        · subst hdv
          rw [dictGetD_dictSet_self]
          rw [if_pos hk, if_pos hk]
          rw [List.count_cons_self]
          push_cast
          ring
        · rw [dictGetD_dictSet_ne _ _ _ _ _ hdv]
          rw [List.count_cons_of_ne hdv]
    · obtain ⟨m', hm', hchar⟩ := ih m fun x hx => hm x (List.mem_cons_of_mem _ hx)
      refine ⟨m', ?_, ?_⟩
      · simp only [diseaseAccum, hk, Option.bind_eq_bind, Option.some_bind, if_neg hkd]
        exact hm'
      · intro d
        rw [hchar d]
        by_cases hdv : d = v
        · subst hdv
          have hnk : ¬ (g.get_vertex_kind d = some "disease") := by
            rw [hk]
            simp [hkd]
          rw [if_neg hnk, if_neg hnk]
        · rw [List.count_cons_of_ne hdv]

theorem mem_generate_combinations {α : Type} :
    ∀ (l : List α) (pr : α × α), pr ∈ generate_combinations l → pr.1 ∈ l ∧ pr.2 ∈ l := by
  intro l
  induction l with
  | nil => intro pr h; simp [generate_combinations] at h
  | cons a t ih =>
    intro pr h
    simp only [generate_combinations, List.mem_append] at h
    rcases h with h | h
    · rcases List.mem_map.mp h with ⟨y, hy, rfl⟩
      exact ⟨List.mem_cons_self _ _, List.mem_cons_of_mem _ hy⟩
    · obtain ⟨h1, h2⟩ := ih pr h
      exact ⟨List.mem_cons_of_mem _ h1, List.mem_cons_of_mem _ h2⟩

/-- The pair loop accumulates, across the generated pairs, exactly the
spec-side contribution of each pair: the path weight of the pair's
shortest path, counted for each disease lying on that path. -/
theorem multiScores_spec (g : Graph) (hcl : g.Closed) :
    ∀ (prs : List (Name × Name)) (m : List (Name × ℚ)),
      (∀ pr ∈ prs, g.hasVertex pr.1 = true ∧ g.hasVertex pr.2 = true) →
      ∃ m', multiScores g prs m = some m' ∧
        ∀ d, dictGetD m' d 0 = dictGetD m d 0 +
          ((prs.map (specPairContribution g d)).sum) := by
  intro prs
  induction prs with
  | nil =>
    intro m _
    exact ⟨m, rfl, by intro d; simp⟩
  | cons pr rest ih =>
    intro m hprs
    rcases pr with ⟨s1, s2⟩
    obtain ⟨hs1, hs2⟩ := hprs (s1, s2) (List.mem_cons_self _ _)
    obtain ⟨p, hp, hemp, hmin⟩ := shortest_path_spec g s1 s2 hcl hs1 hs2
    by_cases hpe : p = []
    · subst hpe
      obtain ⟨m', hm', hchar⟩ := ih m fun q hq => hprs q (List.mem_cons_of_mem _ hq)
      refine ⟨m', ?_, ?_⟩
      · simp only [multiScores, hp, Option.bind_eq_bind, Option.some_bind, diseaseAccum]
        exact hm'
      · intro d
        rw [hchar d]
        have hzero : specPairContribution g d (s1, s2) = 0 := by
          unfold specPairContribution
          rw [hp]
          simp
        rw [List.map_cons, List.sum_cons, hzero]
        ring
    · have hwalk := (hmin hpe).1
      obtain ⟨-, -, -, pmem, -⟩ := hwalk
      have hnd : p.Nodup := shortest_path_nodup g s1 s2 p hcl hs1 hs2 hp hpe
      obtain ⟨ps, hps⟩ := calculate_path_score_isSome g p pmem
      obtain ⟨m1, hm1, hchar1⟩ := diseaseAccum_spec g p ps hps p m pmem
      obtain ⟨m', hm', hchar⟩ := ih m1 fun q hq => hprs q (List.mem_cons_of_mem _ hq)
      refine ⟨m', ?_, ?_⟩
      · simp only [multiScores, hp, Option.bind_eq_bind, Option.some_bind, hm1]
        exact hm'
      · intro d
        rw [hchar d, hchar1 d]
        have hcontrib : specPairContribution g d (s1, s2) =
            if g.get_vertex_kind d = some "disease" then (p.count d : ℚ) * ps else 0 := by
          unfold specPairContribution
          rw [hp]
          simp only [Option.getD_some]
          by_cases hkd : g.get_vertex_kind d = some "disease"
          · by_cases hdp : d ∈ p
            · rw [if_pos ⟨hkd, hdp⟩, if_pos hkd, hps]
              rw [List.count_eq_one_of_mem hnd hdp]
              simp
            · rw [if_neg (fun hand => hdp hand.2), if_pos hkd]
              rw [List.count_eq_zero_of_not_mem hdp]
              simp
          · rw [if_neg (fun hand => hkd hand.1), if_neg hkd]
        rw [List.map_cons, List.sum_cons, hcontrib]
        ring

/-- With two or more symptoms (or zero), the raw-score phase is the
pair loop over the generated combinations. -/
theorem rawScores_multi_eq (g : Graph) (symptoms : List Name)
    (h : symptoms.length ≠ 1) :
    rawScores g symptoms = multiScores g (generate_combinations symptoms) [] := by
  cases symptoms with
  | nil => rfl
  | cons a t =>
    cases t with
    | nil => simp at h
    | cons b t' => rfl

/-! ### Normalization lemmas -/

theorem sum_map_div_mul (l : List ℚ) (S : ℚ) :
    (l.map (fun q => q / S * 100)).sum = l.sum / S * 100 := by
  induction l with
  | nil => simp
  | cons a t ih =>
    simp only [List.map_cons, List.sum_cons, ih]
    ring

/-- The normalized map is empty exactly when every raw score is 0. -/
theorem normalizeScores_eq_nil_iff (scores : List (Name × ℚ)) :
    normalizeScores scores = [] ↔ ∀ p ∈ scores, p.2 = 0 := by
  unfold normalizeScores
  simp only [List.map_eq_nil_iff, List.filter_eq_nil_iff]
  constructor
  · intro h p hp
    have := h p hp
    simpa using this
  · intro h p hp
    simpa using h p hp

/-- The scaling stage: dividing each value by the total and scaling by
100 yields values summing to 100, for a nonempty list of positive
values. -/
theorem scale_stage_sum (l : List (Name × ℚ)) (hpos : ∀ p ∈ l, 0 < p.2) (hne : l ≠ []) :
    ((l.map (fun p => (p.1, p.2 / (l.map Prod.snd).sum * 100))).map Prod.snd).sum = 100 := by
  have hS : 0 < (l.map Prod.snd).sum := by
    apply List.sum_pos
    · intro q hq
      rcases List.mem_map.mp hq with ⟨p, hp, rfl⟩
      exact hpos p hp
    · exact fun h => hne (List.map_eq_nil_iff.mp h)
  rw [List.map_map]
  have hcomp : (Prod.snd ∘ fun p : Name × ℚ => (p.1, p.2 / (l.map Prod.snd).sum * 100)) =
      (fun q : ℚ => q / (l.map Prod.snd).sum * 100) ∘ Prod.snd := rfl
  rw [hcomp, ← List.map_map, sum_map_div_mul, div_self (ne_of_gt hS)]
  norm_num

/-- On nonnegative raw scores, a non-empty normalized map has values
summing to exactly 100. -/
theorem normalizeScores_sum_100 (scores : List (Name × ℚ))
    (hnn : ∀ p ∈ scores, 0 ≤ p.2)
    (hne : normalizeScores scores ≠ []) :
    ((normalizeScores scores).map Prod.snd).sum = 100 := by
  have hflne : scores.filter (fun p => decide (p.2 ≠ 0)) ≠ [] := by
    intro h
    apply hne
    rw [normalizeScores_eq_nil_iff]
    intro p hp
    have := List.filter_eq_nil_iff.mp h p hp
    simpa using this
  have hpos : ∀ p ∈ scores.filter (fun p => decide (p.2 ≠ 0)), 0 < p.2 := by
    intro p hp
    have h1 := List.mem_filter.mp hp
    have h2 := hnn p h1.1
    have h3 : p.2 ≠ 0 := by simpa using h1.2
    exact lt_of_le_of_ne h2 (Ne.symm h3)
  have hinvpos : ∀ p ∈ (scores.filter (fun p => decide (p.2 ≠ 0))).map
      (fun p => (p.1, 1 / p.2)), 0 < p.2 := by
    intro p hp
    rcases List.mem_map.mp hp with ⟨q, hq, rfl⟩
    have := hpos q hq
    positivity
  have hinvne : (scores.filter (fun p => decide (p.2 ≠ 0))).map
      (fun p => (p.1, 1 / p.2)) ≠ [] :=
    fun h => hflne (List.map_eq_nil_iff.mp h)
  exact scale_stage_sum _ hinvpos hinvne

/-! ### Vertex-table update lemmas (for `add_vertex` / `add_edge`) -/

theorem alookup_updateVertex_self (l : List (Name × Vertex)) (k : Name) (f : Vertex → Vertex) :
    alookup (updateVertex l k f) k = (alookup l k).map f := by
  induction l with
  | nil => simp [updateVertex, alookup]
  | cons kv tl ih =>
    by_cases h : kv.1 = k
    · simp only [updateVertex, List.map_cons, if_pos h]
      simp [alookup, h]
    · simp only [updateVertex, List.map_cons, if_neg h]
      rw [← kv.eta]
      simp only [alookup, h, if_false]
      simpa [updateVertex] using ih

theorem alookup_updateVertex_ne (l : List (Name × Vertex)) (k k' : Name) (f : Vertex → Vertex)
    (h : k' ≠ k) : alookup (updateVertex l k f) k' = alookup l k' := by
  induction l with
  | nil => simp [updateVertex, alookup]
  | cons kv tl ih =>
    by_cases hk : kv.1 = k
    · simp only [updateVertex, List.map_cons, if_pos hk]
      rw [← kv.eta]
      simp only [alookup, hk, Ne.symm h, if_false]
      simpa [updateVertex] using ih
    · simp only [updateVertex, List.map_cons, if_neg hk]
      rw [← kv.eta]
      simp only [alookup]
      by_cases hk' : kv.1 = k'
      · simp [hk']
      · simp only [hk', if_false]
        simpa [updateVertex] using ih

theorem findWeight_append_not_mem (l : List (Name × ℚ)) (y : Name) (w : ℚ)
    (h : y ∉ l.map Prod.fst) : Graph.findWeight (l ++ [(y, w)]) y = w := by
  induction l with
  | nil => simp [Graph.findWeight]
  | cons pr tl ih =>
    have h1 : pr.1 ≠ y := by
      intro he
      exact h (by simp [← he])
    rw [← pr.eta]
    simp only [List.cons_append, Graph.findWeight, h1, if_false]
    exact ih fun hm => h (by simp at hm ⊢; exact Or.inr hm)

theorem findWeight_eq_zero_of_not_mem (l : List (Name × ℚ)) (y : Name)
    (h : y ∉ l.map Prod.fst) : Graph.findWeight l y = 0 := by
  induction l with
  | nil => simp [Graph.findWeight]
  | cons pr tl ih =>
    have h1 : pr.1 ≠ y := by
      intro he
      exact h (by simp [← he])
    rw [← pr.eta]
    simp only [Graph.findWeight, h1, if_false]
    exact ih fun hm => h (by simp at hm ⊢; exact Or.inr hm)

theorem pair_not_mem_of_fst_not_mem (l : List (Name × ℚ)) (y : Name) (w : ℚ)
    (h : y ∉ l.map Prod.fst) : (y, w) ∉ l := by
  intro hm
  exact h (List.mem_map.mpr ⟨(y, w), hm, rfl⟩)

/-! ### The claims -/

/-- Claim C1: on a closed graph, for a list of two or more symptoms all
present in the graph, the raw score of every disease is the sum, over
the `C(n,2)` input-ordered pairs, of the pair's shortest-path weight,
counted exactly for the pairs whose shortest path contains a vertex of
kind `"disease"` equal to that disease. -/
theorem claim_C1 (g : Graph) (symptoms : List Name)
    (hcl : g.Closed) (hlen : 2 ≤ symptoms.length)
    (hmem : ∀ s ∈ symptoms, g.hasVertex s = true) :
    ∃ raw, rawScores g symptoms = some raw ∧
      ∀ d, dictGetD raw d 0 =
        ((generate_combinations symptoms).map (specPairContribution g d)).sum := by
  rw [rawScores_multi_eq g symptoms (by omega)]
  obtain ⟨m', hm', hchar⟩ := multiScores_spec g hcl (generate_combinations symptoms) []
    (fun pr hpr => ⟨hmem pr.1 (mem_generate_combinations _ pr hpr).1,
                    hmem pr.2 (mem_generate_combinations _ pr hpr).2⟩)
  refine ⟨m', hm', fun d => ?_⟩
  rw [hchar d]
  simp [dictGetD, alookup]

theorem claim_C1_witness :
    ∃ raw, rawScores gSDS ["s1", "s2"] = some raw ∧
      ∀ d, dictGetD raw d 0 =
        ((generate_combinations ["s1", "s2"]).map (specPairContribution gSDS d)).sum :=
  claim_C1 gSDS ["s1", "s2"] (by decide) (by decide) (by decide)

/-- Claim C2: on a graph with positive weights, the returned map is the
normalization of the raw scores (drop zero raw scores, invert, scale by
`100 / sum`); it is empty exactly when every raw score is zero, and
when non-empty its values sum to exactly 100. -/
theorem claim_C2 (g : Graph) (symptoms : List Name) (raw : List (Name × ℚ))
    (hwp : g.WeightsPos) (hraw : rawScores g symptoms = some raw) :
    calculate_potential_disease g symptoms = some (normalizeScores raw) ∧
      (normalizeScores raw = [] ↔ ∀ p ∈ raw, p.2 = 0) ∧
      (normalizeScores raw ≠ [] → ((normalizeScores raw).map Prod.snd).sum = 100) := by
  refine ⟨by simp [calculate_potential_disease, hraw], normalizeScores_eq_nil_iff raw, ?_⟩
  intro hne
  exact normalizeScores_sum_100 raw (rawScores_nonneg g hwp symptoms raw hraw) hne

theorem claim_C2_witness :
    calculate_potential_disease gHF ["Headache"] = some (normalizeScores [("Flu", 1/2)]) ∧
      (normalizeScores [("Flu", 1/2)] = [] ↔ ∀ p ∈ [("Flu", (1 : ℚ)/2)], p.2 = 0) ∧
      (normalizeScores [("Flu", 1/2)] ≠ [] →
        ((normalizeScores [("Flu", (1 : ℚ)/2)]).map Prod.snd).sum = 100) :=
  claim_C2 gHF ["Headache"] [("Flu", 1/2)]
    (by simp +decide [Graph.WeightsPos, gHF])
    (by simp +decide [rawScores, singleAccum, gHF, Graph.get_neighbours, Graph.lookupV,
      alookup, Graph.get_weight_of_edge, Graph.findWeight, dictSet])

/-- Claim C3 counterexample: re-adding an existing name does not fail
and does not leave the graph unchanged — after the edge `A—B` exists,
re-adding `A` silently replaces it by an isolated vertex, flipping
`adjacent("A","B")` from `True` to `False`. -/
theorem claim_C3_cex :
    ((((Graph.empty.add_vertex "A" "symptom").add_vertex "B" "disease").add_edge
        "A" "B" 2).map (fun g =>
          (g.adjacent "A" "B", (g.add_vertex "A" "symptom").adjacent "A" "B")))
      = some (true, false) := by
  simp +decide [Graph.empty, Graph.add_vertex, Graph.add_edge, Graph.adjacent,
    Graph.lookupV, alookup, dictSet, updateVertex, setAdd]

/-- Claim C3 (amended): `add_vertex` performs no duplicate check: it
always rebinds the name to a fresh isolated vertex of the given kind
(overwriting any existing binding) and leaves every other binding
unchanged; no error is ever raised. -/
theorem claim_C3 (g : Graph) (item : Name) (kind : String) :
    (g.add_vertex item kind).lookupV item = some ⟨item, [], kind⟩ ∧
      ∀ n', n' ≠ item → (g.add_vertex item kind).lookupV n' = g.lookupV n' := by
  constructor
  · simp [Graph.add_vertex, Graph.lookupV, alookup_dictSet_self]
  · intro n' hne
    simp [Graph.add_vertex, Graph.lookupV, alookup_dictSet_ne _ _ _ _ hne]

theorem claim_C3_witness :
    (Graph.empty.add_vertex "A" "symptom").lookupV "A" = some ⟨"A", [], "symptom"⟩ ∧
      (Graph.empty.add_vertex "A" "symptom").lookupV "B" = Graph.empty.lookupV "B" :=
  ⟨(claim_C3 Graph.empty "A" "symptom").1,
   (claim_C3 Graph.empty "A" "symptom").2 "B" (by decide)⟩

/-- Claim C4 counterexample: duplicated symptom names are not collapsed
— `["Headache", "Headache"]` takes the multi-symptom branch (its only
pair is the degenerate `(Headache, Headache)`, whose path is `[Headache]`
and contributes nothing) and returns the empty map, while the
deduplicated `["Headache"]` returns `{Flu: 100}`. -/
theorem claim_C4_cex :
    calculate_potential_disease gHF ["Headache", "Headache"] = some [] ∧
      calculate_potential_disease gHF ["Headache"] = some [("Flu", 100)] ∧
      calculate_potential_disease gHF ["Headache", "Headache"] ≠
        calculate_potential_disease gHF ["Headache"] := by
  have hsp : gHF.shortest_path "Headache" "Headache" = some ["Headache"] :=
    shortest_path_self gHF "Headache" (by decide)
  have hk : gHF.get_vertex_kind "Headache" = some "symptom" := by decide
  have h1 : calculate_potential_disease gHF ["Headache", "Headache"] = some [] := by
    simp +decide [calculate_potential_disease, rawScores, generate_combinations, multiScores,
      hsp, diseaseAccum, hk, normalizeScores]
  have h2 : calculate_potential_disease gHF ["Headache"] = some [("Flu", 100)] := by
    simp +decide [calculate_potential_disease, rawScores, singleAccum, Graph.get_neighbours,
      Graph.lookupV, alookup, gHF, Graph.get_weight_of_edge, Graph.findWeight, dictSet,
      normalizeScores, dictGetD]
  refine ⟨h1, h2, ?_⟩
  rw [h1, h2]
  simp

/-- Claim C4 (amended): duplicates are not treated as a single
occurrence: the pair loop runs over the list as given, including
degenerate equal-name pairs.  In particular a list of two copies of one
present vertex always takes the multi-symptom branch, whose only pair
contributes nothing, so the result is the empty map — regardless of the
neighbourhood that the deduplicated list would score. -/
theorem claim_C4 (g : Graph) (S : Name) (hcl : g.Closed) (hS : g.hasVertex S = true) :
    calculate_potential_disease g [S, S] = some [] := by
  have hsp := shortest_path_self g S hS
  obtain ⟨k, hk⟩ := g.get_vertex_kind_eq_some S hS
  have hda : ∃ m1, diseaseAccum g [S] [] [S] = some m1 ∧ normalizeScores m1 = [] := by
    by_cases hkd : k = "disease"
    · refine ⟨[(S, 0)], ?_, ?_⟩
      · simp only [diseaseAccum, hk, Option.bind_eq_bind, Option.some_bind, if_pos hkd]
        simp [Graph.calculate_path_score, dictSet, dictGetD, alookup]
      · rw [normalizeScores_eq_nil_iff]
        intro p hp
        simp only [List.mem_singleton] at hp
        simp [hp]
    · refine ⟨[], ?_, ?_⟩
      · simp only [diseaseAccum, hk, Option.bind_eq_bind, Option.some_bind, if_neg hkd]
      · rfl
  obtain ⟨m1, hm1, hnorm⟩ := hda
  have hraw : rawScores g [S, S] = some m1 := by
    rw [rawScores_multi_eq g [S, S] (by simp)]
    have hcomb : generate_combinations [S, S] = [(S, S)] := rfl
    rw [hcomb]
    simp only [multiScores, hsp, Option.bind_eq_bind, Option.some_bind, hm1]
  simp [calculate_potential_disease, hraw, hnorm]

theorem claim_C4_witness :
    calculate_potential_disease gSDS ["d", "d"] = some [] :=
  claim_C4 gSDS "d" (by decide) (by decide)

/-- Claim C5: on a closed graph, `shortest_path` raises no exception;
it returns the empty list exactly when an endpoint is absent or no path
exists, and otherwise returns a path of the graph from `start` to `end`
of minimal hop count (some shortest path, not a canonical one). -/
theorem claim_C5 (g : Graph) (s e : Name) (hcl : g.Closed) :
    ∃ r, g.shortest_path s e = some r ∧
      (r = [] ↔ ¬ (g.hasVertex s = true ∧ g.hasVertex e = true) ∨ ¬ ∃ w, IsWalk g s e w) ∧
      (r ≠ [] → IsWalk g s e r ∧ ∀ w, IsWalk g s e w → r.length ≤ w.length) := by
  by_cases hpq : g.hasVertex s = true ∧ g.hasVertex e = true
  · obtain ⟨r, hr, hemp, hmin⟩ := shortest_path_spec g s e hcl hpq.1 hpq.2
    refine ⟨r, hr, ?_, hmin⟩
    constructor
    · intro hre
      right
      rintro ⟨w, hw⟩
      exact hemp hre w hw
    · intro h
      rcases h with h | h
      · exact absurd hpq h
      · by_contra hre
        exact h ⟨r, (hmin hre).1⟩
  · exact ⟨[], shortest_path_absent g s e hpq,
      ⟨fun _ => Or.inl hpq, fun _ => rfl⟩, fun h => absurd rfl h⟩

theorem claim_C5_witness :
    ∃ r, gHF.shortest_path "Headache" "Flu" = some r ∧
      (r = [] ↔ ¬ (gHF.hasVertex "Headache" = true ∧ gHF.hasVertex "Flu" = true) ∨
        ¬ ∃ w, IsWalk gHF "Headache" "Flu" w) ∧
      (r ≠ [] → IsWalk gHF "Headache" "Flu" r ∧
        ∀ w, IsWalk gHF "Headache" "Flu" w → r.length ≤ w.length) :=
  claim_C5 gHF "Headache" "Flu" (by decide)

/-- Normalizing a one-entry map with a nonzero raw score yields that
single disease at 100. -/
theorem normalizeScores_single (d : Name) (w : ℚ) (hw : w ≠ 0) :
    normalizeScores [(d, w)] = [(d, 100)] := by
  simp only [normalizeScores]
  rw [List.filter_cons, if_pos (by simpa using hw)]
  simp only [List.filter_nil, List.map_cons, List.map_nil, List.sum_cons, List.sum_nil,
    add_zero]
  rw [div_self (one_div_ne_zero hw)]
  norm_num

/-- Claim C6: when symptom `S` is adjacent to exactly the one disease
vertex `D`, through an edge of weight `1/severity` for a positive
integer severity, the single-symptom request `[S]` returns exactly
`{D: 100}`. -/
theorem claim_C6 (g : Graph) (S D : Name) (sev : ℕ)
    (hS : g.hasVertex S = true)
    (hnb : g.get_neighbours S = some [D])
    (hkind : g.get_vertex_kind D = some "disease")
    (hw : g.get_weight_of_edge D S = some (1 / (sev : ℚ)))
    (hsev : 1 ≤ sev) :
    calculate_potential_disease g [S] = some [(D, 100)] := by
  have hsQ : ((sev : ℚ)) ≠ 0 := Nat.cast_ne_zero.mpr (by omega)
  have hwne : (1 / (sev : ℚ)) ≠ 0 := one_div_ne_zero hsQ
  have hraw : rawScores g [S] = some [(D, 1 / (sev : ℚ))] := by
    simp only [rawScores, hnb, Option.bind_eq_bind, Option.some_bind, singleAccum, hw]
    rfl
  simp only [calculate_potential_disease, hraw, Option.map_some']
  rw [normalizeScores_single D _ hwne]

theorem claim_C6_witness :
    calculate_potential_disease gHF ["Headache"] = some [("Flu", 100)] :=
  claim_C6 gHF "Headache" "Flu" 2 (by decide) (by decide) (by decide)
    (by simp +decide [Graph.get_weight_of_edge, Graph.lookupV, alookup, gHF,
      Graph.findWeight])
    (by decide)

/-- Claim C7: adding an edge between two distinct present vertices with
positive integer severity (where no earlier edge joins the pair) stores
the weight `1/severity` symmetrically: both directed weight queries
return `1/severity` and both adjacency queries return `True`. -/
theorem claim_C7 (g : Graph) (a b : Name) (sev : ℤ) (va vb : Vertex)
    (hva : g.lookupV a = some va) (hvb : g.lookupV b = some vb)
    (hab : a ≠ b) (hsev : 0 < sev)
    (hnb1 : b ∉ va.neighbours.map Prod.fst)
    (hnb2 : a ∉ vb.neighbours.map Prod.fst) :
    ∃ g', g.add_edge a b sev = some g' ∧
      g'.get_weight_of_edge a b = some (1 / (sev : ℚ)) ∧
      g'.get_weight_of_edge b a = some (1 / (sev : ℚ)) ∧
      g'.adjacent a b = true ∧ g'.adjacent b a = true := by
  have hadd : g.add_edge a b sev = some ⟨updateVertex (updateVertex g.vertices a
      (fun v => { v with neighbours := setAdd v.neighbours (b, 1 / (sev : ℚ)) })) b
      (fun v => { v with neighbours := setAdd v.neighbours (a, 1 / (sev : ℚ)) })⟩ := by
    simp only [Graph.add_edge, hva, hvb]
  have hva' : Graph.lookupV ⟨updateVertex (updateVertex g.vertices a
      (fun v => { v with neighbours := setAdd v.neighbours (b, 1 / (sev : ℚ)) })) b
      (fun v => { v with neighbours := setAdd v.neighbours (a, 1 / (sev : ℚ)) })⟩ a =
      some { va with neighbours := va.neighbours ++ [(b, 1 / (sev : ℚ))] } := by
    show alookup _ a = _
    rw [alookup_updateVertex_ne _ _ _ _ hab, alookup_updateVertex_self]
    unfold Graph.lookupV at hva
    rw [hva, Option.map_some']
    rw [setAdd, if_neg (pair_not_mem_of_fst_not_mem _ _ _ hnb1)]
  have hvb' : Graph.lookupV ⟨updateVertex (updateVertex g.vertices a
      (fun v => { v with neighbours := setAdd v.neighbours (b, 1 / (sev : ℚ)) })) b
      (fun v => { v with neighbours := setAdd v.neighbours (a, 1 / (sev : ℚ)) })⟩ b =
      some { vb with neighbours := vb.neighbours ++ [(a, 1 / (sev : ℚ))] } := by
    show alookup _ b = _
    rw [alookup_updateVertex_self, alookup_updateVertex_ne _ _ _ _ (Ne.symm hab)]
    unfold Graph.lookupV at hvb
    rw [hvb, Option.map_some']
    rw [setAdd, if_neg (pair_not_mem_of_fst_not_mem _ _ _ hnb2)]
  refine ⟨_, hadd, ?_, ?_, ?_, ?_⟩
  · simp only [Graph.get_weight_of_edge, hva', Option.map_some', Option.some.injEq]
    exact findWeight_append_not_mem _ _ _ hnb1
  · simp only [Graph.get_weight_of_edge, hvb', Option.map_some', Option.some.injEq]
    exact findWeight_append_not_mem _ _ _ hnb2
  · simp only [Graph.adjacent, hva', hvb']
    rw [List.any_eq_true]
    exact ⟨(b, 1 / (sev : ℚ)), List.mem_append_right _ (List.mem_singleton.mpr rfl),
      by simp⟩
  · simp only [Graph.adjacent, hva', hvb']
    rw [List.any_eq_true]
    exact ⟨(a, 1 / (sev : ℚ)), List.mem_append_right _ (List.mem_singleton.mpr rfl),
      by simp⟩

theorem claim_C7_witness :
    ∃ g', gAB.add_edge "A" "B" 2 = some g' ∧
      g'.get_weight_of_edge "A" "B" = some (1 / ((2 : ℤ) : ℚ)) ∧
      g'.get_weight_of_edge "B" "A" = some (1 / ((2 : ℤ) : ℚ)) ∧
      g'.adjacent "A" "B" = true ∧ g'.adjacent "B" "A" = true :=
  claim_C7 gAB "A" "B" 2 ⟨"A", [], "symptom"⟩ ⟨"B", [], "disease"⟩
    (by decide) (by decide) (by decide) (by decide) (by decide) (by decide)

/-- Claim C8 counterexample: `get_weight_of_edge` is not total — when
the first name is absent from the graph it raises `KeyError`
(modelled as `none`) instead of returning the sentinel `0.0`. -/
theorem claim_C8_cex : Graph.empty.get_weight_of_edge "A" "B" = none := rfl

/-- Claim C8 (amended): `get_weight_of_edge` succeeds exactly when its
first argument is present (the second argument is never looked up), and
returns the sentinel `0.0` whenever the second name does not occur
among the first vertex's neighbour entries. -/
theorem claim_C8 (g : Graph) (a b : Name) :
    (g.get_weight_of_edge a b).isSome = g.hasVertex a ∧
      (∀ va, g.lookupV a = some va → b ∉ va.neighbours.map Prod.fst →
        g.get_weight_of_edge a b = some 0) := by
  constructor
  · unfold Graph.get_weight_of_edge Graph.hasVertex
    cases g.lookupV a <;> simp
  · intro va hva hnb
    unfold Graph.get_weight_of_edge
    rw [hva]
    simp only [Option.map_some', Option.some.injEq]
    exact findWeight_eq_zero_of_not_mem _ _ hnb

theorem claim_C8_witness :
    (gAB.get_weight_of_edge "A" "Z").isSome = gAB.hasVertex "A" ∧
      gAB.get_weight_of_edge "A" "Z" = some 0 :=
  ⟨(claim_C8 gAB "A" "Z").1,
   (claim_C8 gAB "A" "Z").2 ⟨"A", [], "symptom"⟩ (by decide) (by decide)⟩

/-- Claim C9: for a present vertex, `shortest_path(x, x)` returns the
single-vertex path `[x]`, and `calculate_path_score` of the empty path
and of any single-vertex path is `0.0`. -/
theorem claim_C9 (g : Graph) (x : Name) (hx : g.hasVertex x = true) :
    g.shortest_path x x = some [x] ∧
      g.calculate_path_score [] = some 0 ∧
      ∀ v : Name, g.calculate_path_score [v] = some 0 :=
  ⟨shortest_path_self g x hx, rfl, fun _ => rfl⟩

theorem claim_C9_witness :
    gHF.shortest_path "Flu" "Flu" = some ["Flu"] ∧
      gHF.calculate_path_score [] = some 0 ∧
      ∀ v : Name, gHF.calculate_path_score [v] = some 0 :=
  claim_C9 gHF "Flu" (by decide)

/-- Claim C10: the BFS loop of `shortest_path` terminates with work
bounded by the graph size: running the step-indexed loop with fuel
`2 + Σ_v deg(v)` already completes (each vertex is expanded at most
once) and yields exactly the value of `shortest_path`. -/
theorem claim_C10 (g : Graph) (s e : Name)
    (hs : g.hasVertex s = true) (he : g.hasVertex e = true) :
    ∃ r, g.bfsFuel e (2 + g.totalDeg) [[s]] [] = some r ∧
      g.shortest_path s e = r := by
  have hM : g.bfsMeasure [[s]] [] < 2 + g.totalDeg := by
    rw [bfsMeasure_init]
    omega
  have h1 := g.bfsFuel_isSome e (2 + g.totalDeg) [[s]] [] hM
  obtain ⟨r, hr⟩ := Option.isSome_iff_exists.mp h1
  refine ⟨r, hr, ?_⟩
  have h2 := bfs_eq_of_bfsFuel g e _ _ _ _ hr
  simp only [Graph.shortest_path, hs, he]
  simpa using h2

theorem claim_C10_witness :
    ∃ r, gHF.bfsFuel "Flu" (2 + gHF.totalDeg) [["Headache"]] [] = some r ∧
      gHF.shortest_path "Headache" "Flu" = r :=
  claim_C10 gHF "Headache" "Flu" (by decide) (by decide)
